import Mathlib

/-!
Verification of the Quorum memory-substrate and agent code
(`agents/base.py`, `agents/closer.py`, `agents/data_collector.py`).

Shallow embedding conventions:
* Python `str` values whose characters the code inspects are modelled as
  `List Char` (abbreviated `Str`); opaque labels (statuses, titles, type
  tags) are Lean `String`.
* PostgreSQL tables are Lean lists of row structures inside `DBState`;
  the committed database state is threaded explicitly.  A statement batch
  that raises before `conn.commit()` leaves the committed state unchanged,
  which is modelled by returning the original state (or an `Except.error`
  carrying no state).
* Server-assigned ids are drawn from a `nextId` counter.
* Network calls (embedding providers, LLM) are parameters: an embedding
  provider is `Str → Except String (List ℚ)` (the error is the raised
  exception's message), the LLM is an opaque `Str → Str`.
* The pgvector distance operator `<=>` is an abstract parameter
  `dist : List ℚ → List ℚ → ℚ`; the SQL `ORDER BY` is modelled by a
  stable insertion sort on that key.
* PostgreSQL's parsing of a text literal bound where `jsonb` is expected
  (the third argument of `jsonb_set` in `_update_task_status`) is an
  abstract predicate `JsonbOk`; a literal it rejects makes the UPDATE
  raise `invalid input syntax for type json`.
-/

namespace Quorum

/-- Python strings, character by character. -/
abbrev Str := List Char

/-- The whitespace characters stripped by Python `str.strip()` (ASCII part). -/
def pySpace (c : Char) : Bool :=
  c == ' ' || c == '\t' || c == '\n' || c == '\r' || c == '\x0b' || c == '\x0c'

/-- Python `s.strip()`: remove leading and trailing whitespace. -/
def stripChars (s : Str) : Str :=
  ((s.dropWhile pySpace).reverse.dropWhile pySpace).reverse

/-- Python `pat in s` / SQL `LIKE '%pat%'`: substring containment. -/
def hasSub (pat : Str) : Str → Bool
  | [] => pat.isPrefixOf []
  | c :: rest => pat.isPrefixOf (c :: rest) || hasSub pat rest

/-- Insertion sort by a key into a linear order; models SQL `ORDER BY key ASC`
(ties are left in an unspecified but fixed order, as in the database). -/
def sortByKey {α : Type} {κ : Type} [LinearOrder κ] (key : α → κ) (l : List α) : List α :=
  @List.insertionSort α (fun a b => key a ≤ key b)
    (fun a b => inferInstanceAs (Decidable (key a ≤ key b))) l

/-- JSON-ish object metadata (`metadata` columns), as key/value pairs. -/
abbrev Meta := List (String × String)

/-- Python `jsonb_set(m, '\x7bk\x7d', v)` on the model of a jsonb object. -/
def setMeta (m : Meta) (k v : String) : Meta :=
  (m.filter (fun kv => !(kv.1 == k))) ++ [(k, v)]

/-- Lookup in the metadata object. -/
def getMeta (m : Meta) (k : String) : Option String :=
  (m.find? (fun kv => kv.1 == k)).map (fun kv => kv.2)

/-- A row of `documents`. -/
structure DocRow where
  id : Nat
  docType : String
  source : String
  title : String
  content : Str
  metadata : Meta
  tags : List String
deriving DecidableEq

/-- A row of `document_chunks`. -/
structure ChunkRow where
  id : Nat
  documentId : Nat
  chunkIndex : Nat
  content : Str
  metadata : Meta
deriving DecidableEq

/-- A row of `conversations`. -/
structure ConvRow where
  id : Nat
  title : String
deriving DecidableEq

/-- A row of `conversation_turns`. -/
structure TurnRow where
  id : Nat
  conversationId : Nat
  role : String
  content : Str
  createdAt : Int
deriving DecidableEq

/-- A row of `events`. -/
structure EventRow where
  id : Nat
  eventType : String
  actor : String
  title : String
  description : Str
  refIds : List Nat
  metadata : Meta
deriving DecidableEq

/-- A row of `tasks`. -/
structure TaskRow where
  id : Nat
  title : String
  description : String
  status : String
  priority : Int
  owner : Option String
  createdBy : String
  dueAt : Option Int
  completedAt : Option Int
  metadata : Meta
deriving DecidableEq

/-- A row of `embeddings`.  The spec declares `(ref_type, ref_id)` a unique
composite key (the schema file is not part of the sources; the `ON CONFLICT`
clause in the code requires that unique index to exist). -/
structure EmbRow where
  refType : String
  refId : Nat
  embedding : List ℚ
  modelName : String
deriving DecidableEq

/-- A row of `agent_runs`. -/
structure AgentRunRow where
  agentName : String
  startedAt : Int
  completedAt : Int
  status : String
  summary : String
  metadata : Meta
deriving DecidableEq

/-- The committed database state. -/
structure DBState where
  documents : List DocRow
  chunks : List ChunkRow
  conversations : List ConvRow
  turns : List TurnRow
  events : List EventRow
  tasks : List TaskRow
  embeddings : List EmbRow
  agentRuns : List AgentRunRow
  nextId : Nat
deriving DecidableEq

/-- An embedding provider: `QuorumAgent.embed_text`.  A transport or provider
failure is the raised exception's message. -/
abbrev EmbedFn := Str → Except String (List ℚ)

/-- The SQL upsert
`INSERT INTO embeddings ... ON CONFLICT (ref_type, ref_id) DO UPDATE SET
embedding = EXCLUDED.embedding` (note: on conflict only `embedding` is
replaced; `model_name` keeps its old value). -/
def upsertEmbedding (tbl : List EmbRow) (rt : String) (rid : Nat)
    (vec : List ℚ) (model : String) : List EmbRow :=
  if tbl.any (fun r => r.refType == rt && r.refId == rid) then
    tbl.map (fun r =>
      if r.refType == rt && r.refId == rid then { r with embedding := vec } else r)
  else
    tbl ++ [⟨rt, rid, vec, model⟩]

/-- `QuorumAgent.store_document`: INSERT the document (uncommitted), embed the
first 8000 characters of the content, upsert the embedding, COMMIT.  If the
embedding call raises, the commit is never reached, so the committed state is
unchanged and the exception propagates to the caller. -/
def store_document (st : DBState) (embed : EmbedFn) (agentName : String)
    (docType title : String) (content : Str) (metadata : Meta)
    (tags : List String) (modelName : String) : DBState × Except String Nat :=
  let docId := st.nextId
  match embed (content.take 8000) with
  | Except.error e => (st, Except.error e)
  | Except.ok vec =>
      ({ st with
          nextId := st.nextId + 1,
          documents := st.documents ++ [⟨docId, docType, agentName, title, content, metadata, tags⟩],
          embeddings := upsertEmbedding st.embeddings "document" docId vec modelName },
       Except.ok docId)

/-- `QuorumAgent.store_event`: plain INSERT plus COMMIT; returns the new id. -/
def store_event (st : DBState) (agentName : String) (eventType title : String)
    (description : Str) (refIds : List Nat) (metadata : Meta) : DBState × Nat :=
  let eid := st.nextId
  ({ st with
      nextId := st.nextId + 1,
      events := st.events ++ [⟨eid, eventType, agentName, title, description, refIds, metadata⟩] },
   eid)

/-- A hydrated content row, by table. -/
inductive ContentRow where
  | document : DocRow → ContentRow
  | chunk : ChunkRow → ContentRow
  | turn : TurnRow → ContentRow
  | event : EventRow → ContentRow
  | task : TaskRow → ContentRow
deriving DecidableEq

/-- `QuorumAgent._fetch_content`: dispatch on `ref_type` through the fixed
table map and fetch the row by id; unknown `ref_type` or a missing row give
`none`. -/
def fetch_content (st : DBState) (refType : String) (refId : Nat) : Option ContentRow :=
  match refType with
  | "document" => (st.documents.find? (fun r => r.id == refId)).map ContentRow.document
  | "document_chunk" => (st.chunks.find? (fun r => r.id == refId)).map ContentRow.chunk
  | "conversation_turn" => (st.turns.find? (fun r => r.id == refId)).map ContentRow.turn
  | "event" => (st.events.find? (fun r => r.id == refId)).map ContentRow.event
  | "task" => (st.tasks.find? (fun r => r.id == refId)).map ContentRow.task
  | _ => none

/-- A hydrated search result: the embedding hit's fields plus the
cosine-similarity score and the content row. -/
structure Hit where
  refType : String
  refId : Nat
  score : ℚ
  row : ContentRow
deriving DecidableEq

/-- The ranking part of `QuorumAgent.search_memory`, given the query's
embedding `qvec`: filter by `ref_type` (when given), order by
`embedding <=> qvec` ascending, take `limit` candidates, attach
`score = 1 - distance`, hydrate, and drop hits whose content row is gone. -/
def search_rank (st : DBState) (dist : List ℚ → List ℚ → ℚ) (qvec : List ℚ)
    (limit : Nat) (refTypeFilter : Option String) : List Hit :=
  let cands := st.embeddings.filter (fun e =>
    match refTypeFilter with
    | none => true
    | some rt => e.refType == rt)
  let sorted := sortByKey (fun e => dist e.embedding qvec) cands
  let top := sorted.take limit
  top.filterMap (fun e =>
    (fetch_content st e.refType e.refId).map (fun row =>
      ⟨e.refType, e.refId, 1 - dist e.embedding qvec, row⟩))

/-- `QuorumAgent.search_memory`: embed the query, then rank and hydrate.
An embedding failure propagates. -/
def search_memory (st : DBState) (dist : List ℚ → List ℚ → ℚ) (embed : EmbedFn)
    (query : Str) (limit : Nat) (refTypeFilter : Option String) :
    Except String (List Hit) :=
  match embed query with
  | Except.error e => Except.error e
  | Except.ok qvec => Except.ok (search_rank st dist qvec limit refTypeFilter)

/-- A chunk dict produced by `_chunk_content` (or supplied by the LLM):
`content` plus a metadata object. -/
structure Chunk where
  content : Str
  metadata : Meta
deriving DecidableEq

/-- Python `content.split("\n\n")`: split at each non-overlapping occurrence
of two consecutive newlines, left to right. -/
def splitParas : Str → List Str
  | [] => [[]]
  | [c] => [[c]]
  | c1 :: c2 :: rest =>
      if c1 = '\n' ∧ c2 = '\n' then
        [] :: splitParas rest
      else
        match splitParas (c2 :: rest) with
        | [] => [[c1]]
        | p :: ps => (c1 :: p) :: ps

/-- Python `"\n\n".join(ps)`. -/
def joinParas : List Str → Str
  | [] => []
  | [p] => p
  | p :: ps => p ++ '\n' :: '\n' :: joinParas ps

/-- The accumulation loop of `DataCollectorAgent._chunk_content`: greedily pack
paragraphs into the current chunk; flush (stripped) when adding the next
paragraph would exceed `chunkSize` and the current chunk is non-empty; flush
the final chunk only if its stripped content is non-empty. -/
def chunkLoop (chunkSize : Nat) : List Str → Str → Nat → List Chunk
  | [], cur, idx =>
      if stripChars cur = [] then []
      else [Chunk.mk (stripChars cur) [("chunk_index", toString idx)]]
  | p :: ps, cur, idx =>
      if chunkSize < cur.length + p.length + 2 ∧ cur ≠ [] then
        Chunk.mk (stripChars cur) [("chunk_index", toString idx)] ::
          chunkLoop chunkSize ps p (idx + 1)
      else
        chunkLoop chunkSize ps (if cur = [] then p else cur ++ '\n' :: '\n' :: p) idx

/-- `DataCollectorAgent._chunk_content`: no chunks when the content fits in
one chunk, otherwise split at paragraph boundaries and pack. -/
def chunk_content (content : Str) (chunkSize : Nat) : List Chunk :=
  if content.length ≤ chunkSize then []
  else chunkLoop chunkSize (splitParas content) [] 0

/-- The chunk-storage loop of `DataCollectorAgent._store_normalized`: for each
chunk (with its `enumerate` index), skip it if its stripped content is empty,
otherwise INSERT the DocumentChunk row with `chunk_index` equal to the
enumerate index and upsert its embedding; COMMIT at the end.  An embedding
failure raises before the commit, leaving the committed state unchanged. -/
def store_chunk_rows (embed : EmbedFn) (modelName : String) (docId : Nat) :
    DBState → List Chunk → Nat → Except String DBState
  | st, [], _ => Except.ok st
  | st, ch :: rest, idx =>
      if stripChars ch.content = [] then
        store_chunk_rows embed modelName docId st rest (idx + 1)
      else
        let chunkId := st.nextId
        let st1 := { st with
          nextId := st.nextId + 1,
          chunks := st.chunks ++ [ChunkRow.mk chunkId docId idx ch.content ch.metadata] }
        match embed (ch.content.take 8000) with
        | Except.error e => Except.error e
        | Except.ok vec =>
            store_chunk_rows embed modelName docId
              { st1 with
                embeddings := upsertEmbedding st1.embeddings "document_chunk" chunkId vec modelName }
              rest (idx + 1)

/-- A normalized item, as returned by `_normalize_with_llm` or
`_fallback_normalize`. -/
structure Normalized where
  title : String
  docType : String
  content : Str
  tags : List String
  metadata : Meta
  chunks : List Chunk
deriving DecidableEq

/-- `DataCollectorAgent._store_normalized`: store the document (which commits
the document and its embedding), then store the chunks — the LLM-provided ones
if any, else the ones produced by `_chunk_content` with the default target of
3000 characters. -/
def store_normalized (st : DBState) (embed : EmbedFn) (modelName : String)
    (nz : Normalized) : Except String (DBState × Nat) :=
  let docId := st.nextId
  match (store_document st embed "data_collector" nz.docType nz.title nz.content
      nz.metadata nz.tags modelName).2 with
  | Except.error e => Except.error e
  | Except.ok _ =>
      let st1 := (store_document st embed "data_collector" nz.docType nz.title nz.content
        nz.metadata nz.tags modelName).1
      let chunks := if nz.chunks.isEmpty then chunk_content nz.content 3000 else nz.chunks
      match store_chunk_rows embed modelName docId st1 chunks 0 with
      | Except.error e => Except.error e
      | Except.ok st2 => Except.ok (st2, docId)

/-- PostgreSQL's acceptance of a text literal bound in a `jsonb` position:
`pg s = true` iff `s` parses as a JSON value.  The Closer's verification notes
("Verified by Closer: ..." and "Partial progress by Closer: ...") begin with a
letter no JSON value can begin with, so PostgreSQL rejects them; theorems take
that as an explicit hypothesis on this parameter. -/
abbrev JsonbOk := String → Bool

/-- `CloserAgent._update_task_status`: one UPDATE with `jsonb_set` writing the
notes into `metadata -> verification_notes`; the done/completed branch also
stamps `completed_at = NOW()`.  Both branches bind `notes` as the new `jsonb`
value of `jsonb_set`; if that text literal is not valid JSON the UPDATE
raises, the except-branch rolls back and returns `False` — otherwise commit
and return `True` (an id matching no row still returns `True`). -/
def update_task_status (pg : JsonbOk) (st : DBState) (now : Int) (taskId : Nat)
    (newStatus : String) (notes : String) : DBState × Bool :=
  if pg notes then
    if newStatus == "done" || newStatus == "completed" then
      ({ st with tasks := st.tasks.map (fun t =>
          if t.id == taskId then
            { t with status := newStatus, completedAt := some now,
                     metadata := setMeta t.metadata "verification_notes" notes }
          else t) }, true)
    else
      ({ st with tasks := st.tasks.map (fun t =>
          if t.id == taskId then
            { t with status := newStatus,
                     metadata := setMeta t.metadata "verification_notes" notes }
          else t) }, true)
  else
    (st, false)

/-- A `verified_completions` verdict entry (fields via `dict.get`). -/
structure Completion where
  taskId : Option Nat
  evidenceFound : Option String
  confidence : Option ℚ
deriving DecidableEq

/-- A `partial_updates` verdict entry (fields via `dict.get`). -/
structure ProgressUpdate where
  taskId : Option Nat
  progressNotes : Option String
  newStatus : Option String
deriving DecidableEq

/-- A `follow_up_flags` verdict entry (fields via `dict.get`). -/
structure FollowUpFlag where
  claim : Option Str
  reasonUndetermined : Option String
  suggestedAction : Option String
deriving DecidableEq

/-- A `verification_events` verdict entry (fields via `dict.get`). -/
structure VerificationEvent where
  title : Option String
  description : Option Str
  consideredAgents : Option (List String)
deriving DecidableEq

/-- The parsed verdict of the Closer's LLM call. -/
structure Verdict where
  verifiedCompletions : List Completion
  progressUpdates : List ProgressUpdate
  followUpFlags : List FollowUpFlag
  verificationEvents : List VerificationEvent
deriving DecidableEq

/-- The empty verdict returned by `_parse_response` on a JSON decode
failure. -/
def emptyVerdict : Verdict := ⟨[], [], [], []⟩

/-- One iteration of the `_process_verified_completions` loop: skip entries
without a `task_id`; when `confidence >= 0.7`, mark the task done with the
prefixed verification note and count the update if it returned `True`. -/
def completion_step (pg : JsonbOk) (now : Int) (acc : DBState × Nat)
    (comp : Completion) : DBState × Nat :=
  match comp.taskId with
  | none => acc
  | some tid =>
      if (7 : ℚ)/10 ≤ comp.confidence.getD 0 then
        let notes := "Verified by Closer: " ++ comp.evidenceFound.getD ""
        let r := update_task_status pg acc.1 now tid "done" notes
        (r.1, if r.2 then acc.2 + 1 else acc.2)
      else acc

/-- `CloserAgent._process_verified_completions`. -/
def process_verified_completions (pg : JsonbOk) (st : DBState) (now : Int)
    (completions : List Completion) : DBState × Nat :=
  completions.foldl (completion_step pg now) (st, 0)

/-- One iteration of the `_process_partial_updates` loop: skip entries without
a `task_id`; set the verdict-provided status (default `in_progress`) with the
prefixed progress note. -/
def progress_step (pg : JsonbOk) (now : Int) (acc : DBState × Nat)
    (upd : ProgressUpdate) : DBState × Nat :=
  match upd.taskId with
  | none => acc
  | some tid =>
      let notes := "Partial progress by Closer: " ++ upd.progressNotes.getD ""
      let r := update_task_status pg acc.1 now tid (upd.newStatus.getD "in_progress") notes
      (r.1, if r.2 then acc.2 + 1 else acc.2)

/-- `CloserAgent._process_partial_updates` (named here for the progress notes
it writes). -/
def process_progress_updates (pg : JsonbOk) (st : DBState) (now : Int)
    (updates : List ProgressUpdate) : DBState × Nat :=
  updates.foldl (progress_step pg now) (st, 0)

/-- One iteration of `_store_verification_events`: append one `verification`
event (the `considered_agents` list is carried in metadata, modelled
comma-joined). -/
def verification_event_step (acc : DBState × Nat) (evt : VerificationEvent) :
    DBState × Nat :=
  let r := store_event acc.1 "closer" "verification"
    (evt.title.getD "Verification notice") (evt.description.getD []) []
    [("considered_agents", String.intercalate "," (evt.consideredAgents.getD ["executor"]))]
  (r.1, acc.2 + 1)

/-- `CloserAgent._store_verification_events`. -/
def store_verification_events (st : DBState) (events : List VerificationEvent) :
    DBState × Nat :=
  events.foldl verification_event_step (st, 0)

/-- The three backquotes of a Markdown code fence. -/
def fence : Str := [Char.ofNat 96, Char.ofNat 96, Char.ofNat 96]

/-- The opening-fence step of `_parse_response`: if the stripped text starts
with a fence, drop everything through the first newline (or just the three
fence characters when there is no newline). -/
def dropFenceStart (c0 : Str) : Str :=
  if fence.isPrefixOf c0 then
    if c0.contains '\n' then (c0.dropWhile (fun ch => !(ch == '\n'))).drop 1
    else c0.drop 3
  else c0

/-- The closing-fence step of `_parse_response`: if the text now ends with a
fence, drop the last three characters. -/
def dropFenceEnd (c1 : Str) : Str :=
  if fence.isSuffixOf c1 then c1.take (c1.length - 3) else c1

/-- The fence-stripping normalization in `CloserAgent._parse_response`: strip
whitespace, strip a leading fence line, strip a trailing fence, strip
whitespace again. -/
def strip_fences (raw : Str) : Str :=
  stripChars (dropFenceEnd (dropFenceStart (stripChars raw)))

/-- `CloserAgent._parse_response`: decode the fence-stripped text (the JSON
decoding and field extraction are the abstract `parse`); a decode failure
falls back to the empty verdict instead of raising. -/
def parse_response (parse : Str → Option Verdict) (raw : Str) : Verdict :=
  match parse (strip_fences raw) with
  | some v => v
  | none => emptyVerdict

/-- One iteration of the follow-up-flags loop of `CloserAgent.run`: append a
`follow_up` event describing the unresolved claim (truncated to 100
characters), the reason, and the suggested action. -/
def follow_up_step (s : DBState) (flag : FollowUpFlag) : DBState :=
  let description :=
    "Claim: ".data ++ (flag.claim.getD []).take 100 ++
    "\n\nReason: ".data ++ (flag.reasonUndetermined.getD "").data ++
    "\n\nSuggested: ".data ++ (flag.suggestedAction.getD "").data
  (store_event s "closer" "follow_up" "Verification follow-up needed"
    description [] [("considered_agents", "executor,strategist")]).1

/-- The verdict-application tail of `CloserAgent.run` (lines 349-364): process
verified completions, then partial updates, then verification events, then
append one `follow_up` event per flag; returns the four counts that feed the
summary. -/
def apply_verdict (pg : JsonbOk) (st : DBState) (now : Int) (v : Verdict) :
    DBState × (Nat × Nat × Nat × Nat) :=
  let r1 := process_verified_completions pg st now v.verifiedCompletions
  let r2 := process_progress_updates pg r1.1 now v.progressUpdates
  let r3 := store_verification_events r2.1 v.verificationEvents
  let st4 := v.followUpFlags.foldl follow_up_step r3.1
  (st4, (r1.2, r2.2, r3.2, v.followUpFlags.length))

/-- The apostrophe character, for the completion-marker patterns. -/
def apos : String := String.singleton (Char.ofNat 39)

/-- The fixed lexical completion markers `_COMPLETION_PATTERNS`. -/
def completionPatterns : List String :=
  ["i did", "i have done", "i finished", "i completed",
   "i" ++ apos ++ "ve done", "i" ++ apos ++ "ve finished", "i" ++ apos ++ "ve completed",
   "just finished", "just completed",
   "done and done", "all done", "that" ++ apos ++ "s done", "that is done",
   "sent it", "emailed", "called", "posted", "deployed", "shipped",
   "merged", "pushed", "submitted", "uploaded", "published"]

/-- `CloserAgent._recent_conversations_with_claims`: user turns of existing
conversations, within the lookback window, whose lowercased content contains
one of the completion markers, newest first, at most 100 rows. -/
def recent_claims (st : DBState) (now : Int) (lookbackHours : Int) : List TurnRow :=
  let since := now - lookbackHours * 3600
  let matched := st.turns.filter (fun t =>
    t.role == "user" && decide (since ≤ t.createdAt) &&
    st.conversations.any (fun c => c.id == t.conversationId) &&
    completionPatterns.any (fun p => hasSub p.data (t.content.map Char.toLower)))
  (sortByKey (fun t => -t.createdAt) matched).take 100

/-- Python exceptions distinguished by the model. -/
inductive PyErr where
  | attributeError
deriving DecidableEq

/-- `CloserAgent.run`: fetch claims, open tasks, recent events and turns (all
reads); return the no-op summary when no completion claim was found; otherwise
the very next statement, `self._get_all_agent_context()`, calls
`self.get_other_agent_events(...)` — a method defined nowhere in the
repository (neither on `CloserAgent` nor `QuorumAgent`), so Python raises
`AttributeError` before the LLM is consulted and before any task is touched.
The LLM is the unused parameter `llm`; the committed state is returned
unchanged on both paths. -/
def closer_run (st : DBState) (now lookbackHours : Int) (llm : Str → Str) :
    DBState × Except PyErr String :=
  let claims := recent_claims st now lookbackHours
  if claims.isEmpty then (st, Except.ok "No completion claims found.")
  else (st, Except.error PyErr.attributeError)

/-- The state seen by the execution harness: the database plus whether the
agent's connection is open. -/
structure HarnessState where
  db : DBState
  connOpen : Bool
deriving DecidableEq

/-- `QuorumAgent.log_run`: (re)open the connection and append one audit row;
the INSERT stamps both `started_at` and `completed_at` with `NOW()` of the
same statement, i.e. one and the same timestamp. -/
def log_run (st : HarnessState) (agentName : String) (now : Int)
    (status summary : String) : HarnessState :=
  { st with
      connOpen := true,
      db := { st.db with
        agentRuns := st.db.agentRuns ++ [⟨agentName, now, now, status, summary, []⟩] } }

/-- `QuorumAgent.execute`: connect, run, log; on an exception from `run()` try
to log a `failed` row, swallow a failure of that audit write (`auditFails`,
with `auditMsg` the audit exception's message), close the connection in the
`finally` block, and re-raise the original error.  On normal return log a
`completed` row with the summary; if that audit write raises, the except
branch catches it and tries to log it as a `failed` run (which fails again
under the same `auditFails` flag) before re-raising it. -/
def execute (st : HarnessState) (agentName : String) (now : Int)
    (runResult : Except String String) (auditFails : Bool) (auditMsg : String) :
    HarnessState × Except String Unit :=
  let st1 := { st with connOpen := true }
  match runResult with
  | Except.ok summary =>
      if auditFails then
        ({ st1 with connOpen := false }, Except.error auditMsg)
      else
        let st2 := log_run st1 agentName now "completed" summary
        ({ st2 with connOpen := false }, Except.ok ())
  | Except.error e =>
      let st2 := if auditFails then st1 else log_run st1 agentName now "failed" e
      ({ st2 with connOpen := false }, Except.error e)

/-! ## C1: `store_document` is atomic with respect to embedding failure -/

/-- C1.  If the embedding provider call raises during `store_document`, the
whole operation fails with that error, the committed state is unchanged (the
document INSERT is never committed), and in particular `search` over the
resulting state returns exactly what it returned before the call — no document
becomes retrievable without the caller having been signalled. -/
theorem C1_store_document_atomic (st : DBState) (embed : EmbedFn)
    (agentName docType title modelName : String) (content : Str)
    (metadata : Meta) (tags : List String) (e : String)
    (hembed : embed (content.take 8000) = Except.error e) :
    store_document st embed agentName docType title content metadata tags modelName
      = (st, Except.error e) ∧
    ∀ dist qvec limit rtF,
      search_rank (store_document st embed agentName docType title content
        metadata tags modelName).1 dist qvec limit rtF
        = search_rank st dist qvec limit rtF := by
  have h1 : store_document st embed agentName docType title content metadata tags modelName
      = (st, Except.error e) := by
    simp [store_document, hembed]
  exact ⟨h1, fun dist qvec limit rtF => by rw [h1]⟩

/-- Witness for C1 at a concrete failing provider and an empty store. -/
theorem C1_witness :
    ((fun _ => Except.error "connection refused" : EmbedFn) ("hello".data.take 8000)
      = Except.error "connection refused") ∧
    store_document ⟨[], [], [], [], [], [], [], [], 0⟩
        (fun _ => Except.error "connection refused") "onboarding" "note" "t"
        "hello".data [] [] "mxbai-embed-large"
      = (⟨[], [], [], [], [], [], [], [], 0⟩, Except.error "connection refused") :=
  ⟨rfl,
   (C1_store_document_atomic ⟨[], [], [], [], [], [], [], [], 0⟩
      (fun _ => Except.error "connection refused") "onboarding" "note" "t"
      "mxbai-embed-large" "hello".data [] [] "connection refused" rfl).1⟩

/-! ## C6: harness failure path -/

/-- C6.  When `run()` raises, `execute` re-raises exactly the original error
(even when the audit write itself fails — the secondary failure is swallowed
and never masks the original), closes the store connection, and appends
exactly one `failed` AgentRun row carrying the error message as summary when
the audit write succeeds (and none when it fails). -/
theorem C6_execute_failure_path (st : HarnessState) (agentName : String)
    (now : Int) (e : String) (auditFails : Bool) (auditMsg : String) :
    (execute st agentName now (Except.error e) auditFails auditMsg).2
      = Except.error e ∧
    (execute st agentName now (Except.error e) auditFails auditMsg).1.connOpen = false ∧
    (auditFails = false →
      (execute st agentName now (Except.error e) auditFails auditMsg).1.db.agentRuns
        = st.db.agentRuns ++ [⟨agentName, now, now, "failed", e, []⟩]) ∧
    (auditFails = true →
      (execute st agentName now (Except.error e) auditFails auditMsg).1.db.agentRuns
        = st.db.agentRuns) := by
  cases auditFails <;> simp [execute, log_run]

/-- Witness for C6 at a concrete failing run. -/
theorem C6_witness :
    ((false : Bool) = false →
      (execute ⟨⟨[], [], [], [], [], [], [], [], 0⟩, false⟩ "closer" 5
          (Except.error "boom") false "x").1.db.agentRuns
        = [] ++ [⟨"closer", 5, 5, "failed", "boom", []⟩]) ∧
    (execute ⟨⟨[], [], [], [], [], [], [], [], 0⟩, false⟩ "closer" 5
        (Except.error "boom") false "x").2 = Except.error "boom" :=
  ⟨(C6_execute_failure_path ⟨⟨[], [], [], [], [], [], [], [], 0⟩, false⟩
      "closer" 5 "boom" false "x").2.2.1,
   (C6_execute_failure_path ⟨⟨[], [], [], [], [], [], [], [], 0⟩, false⟩
      "closer" 5 "boom" false "x").1⟩

/-! ## C10: audit rows record zero duration -/

/-- C10.  Every AgentRun row written by `log_run` (and hence every row the
harness appends through `execute`) has `started_at` equal to `completed_at`:
both are stamped `NOW()` in the same INSERT, so the recorded duration is
always zero regardless of how long the business logic ran. -/
theorem C10_log_run_zero_duration :
    (∀ (st : HarnessState) (agentName : String) (now : Int) (status summary : String),
      (log_run st agentName now status summary).db.agentRuns
        = st.db.agentRuns ++ [⟨agentName, now, now, status, summary, []⟩]) ∧
    (∀ (st : HarnessState) (agentName : String) (now : Int)
        (runResult : Except String String) (auditFails : Bool) (auditMsg : String)
        (r : AgentRunRow),
      r ∈ (execute st agentName now runResult auditFails auditMsg).1.db.agentRuns →
      r ∈ st.db.agentRuns ∨ r.startedAt = r.completedAt) := by
  constructor
  · intro st agentName now status summary
    simp [log_run]
  · intro st agentName now runResult auditFails auditMsg r hr
    cases runResult <;> cases auditFails <;>
        simp [execute, log_run, List.mem_append] at hr
    case ok.true => exact Or.inl hr
    case error.true => exact Or.inl hr
    case ok.false =>
      rcases hr with hr | hr
      · exact Or.inl hr
      · right; rw [hr]
    case error.false =>
      rcases hr with hr | hr
      · exact Or.inl hr
      · right; rw [hr]

/-- Witness for C10: the row appended by a concrete `execute` call has equal
start and completion timestamps. -/
theorem C10_witness :
    (⟨"runner", 7, 7, "completed", "ok", []⟩ : AgentRunRow)
      ∈ (execute ⟨⟨[], [], [], [], [], [], [], [], 0⟩, false⟩ "runner" 7
          (Except.ok "ok") false "x").1.db.agentRuns ∧
    ((⟨"runner", 7, 7, "completed", "ok", []⟩ : AgentRunRow)
        ∈ (⟨[], [], [], [], [], [], [], [], 0⟩ : DBState).agentRuns ∨
      (⟨"runner", 7, 7, "completed", "ok", []⟩ : AgentRunRow).startedAt
        = (⟨"runner", 7, 7, "completed", "ok", []⟩ : AgentRunRow).completedAt) :=
  ⟨by decide,
   C10_log_run_zero_duration.2 ⟨⟨[], [], [], [], [], [], [], [], 0⟩, false⟩
     "runner" 7 (Except.ok "ok") false "x" ⟨"runner", 7, 7, "completed", "ok", []⟩
     (by decide)⟩

/-! ## C9: the Closer aborts whenever a completion claim is found -/

/-- C9.  Whenever at least one completion-marker turn is in the lookback
window, `CloserAgent.run` raises (`AttributeError`, because
`get_other_agent_events` is defined nowhere in the sources) before any
inference call — the result does not depend on `llm` — and before mutating
any task: the state comes back unchanged.  The run completes normally exactly
on the no-claims path. -/
theorem C9_closer_run_aborts_on_claims (st : DBState) (now lookbackHours : Int)
    (llm : Str → Str) :
    (recent_claims st now lookbackHours ≠ [] →
      closer_run st now lookbackHours llm = (st, Except.error PyErr.attributeError)) ∧
    (recent_claims st now lookbackHours = [] →
      closer_run st now lookbackHours llm = (st, Except.ok "No completion claims found.")) := by
  constructor
  · intro h
    have : (recent_claims st now lookbackHours).isEmpty = false := by
      cases hc : recent_claims st now lookbackHours with
      | nil => exact absurd hc h
      | cons a l => simp [hc]
    simp [closer_run, this]
  · intro h
    simp [closer_run, h]

/-- Witness for C9: a store holding one matching user turn ("i finished the
report") makes the run abort with `AttributeError`. -/
theorem C9_witness :
    recent_claims
        ⟨[], [], [⟨1, "chat"⟩], [⟨10, 1, "user", "i finished the report".data, 0⟩],
          [], [], [], [], 11⟩ 0 24 ≠ [] ∧
    closer_run
        ⟨[], [], [⟨1, "chat"⟩], [⟨10, 1, "user", "i finished the report".data, 0⟩],
          [], [], [], [], 11⟩ 0 24 (fun s => s)
      = (⟨[], [], [⟨1, "chat"⟩], [⟨10, 1, "user", "i finished the report".data, 0⟩],
          [], [], [], [], 11⟩, Except.error PyErr.attributeError) :=
  ⟨by decide,
   (C9_closer_run_aborts_on_claims
      ⟨[], [], [⟨1, "chat"⟩], [⟨10, 1, "user", "i finished the report".data, 0⟩],
        [], [], [], [], 11⟩ 0 24 (fun s => s)).1 (by decide)⟩

/-! ## C3: at most one embedding row per `(ref_type, ref_id)` -/

/-- The Embedding-table invariant: no two rows share the `(ref_type, ref_id)`
composite key. -/
def EmbUnique (tbl : List EmbRow) : Prop :=
  tbl.Pairwise (fun a b => ¬(a.refType = b.refType ∧ a.refId = b.refId))

instance (tbl : List EmbRow) : Decidable (EmbUnique tbl) := by
  unfold EmbUnique
  exact List.instDecidablePairwise tbl

/-- Under the invariant, at most one row matches a given key. -/
lemma filter_key_length_le_one (tbl : List EmbRow) (rt : String) (rid : Nat)
    (h : EmbUnique tbl) :
    (tbl.filter (fun r => r.refType == rt && r.refId == rid)).length ≤ 1 := by
  induction tbl with
  | nil => simp
  | cons a tl ih =>
    rw [EmbUnique, List.pairwise_cons] at h
    by_cases hk : (a.refType == rt && a.refId == rid) = true
    · have hnil : tl.filter (fun r => r.refType == rt && r.refId == rid) = [] := by
        refine List.filter_eq_nil_iff.mpr (fun b hb hkb => ?_)
        simp only [Bool.and_eq_true, beq_iff_eq] at hk hkb
        exact h.1 b hb ⟨hk.1.trans hkb.1.symm, hk.2.trans hkb.2.symm⟩
      simp [List.filter_cons, hk, hnil]
    · simpa [List.filter_cons, hk] using ih h.2

/-- The conflict branch of the upsert replaces only the embedding, leaving
the key fields untouched. -/
lemma upsert_map_key (rt : String) (rid : Nat) (vec : List ℚ) (r : EmbRow) :
    ((if r.refType == rt && r.refId == rid then { r with embedding := vec } else r) : EmbRow).refType
      = r.refType ∧
    ((if r.refType == rt && r.refId == rid then { r with embedding := vec } else r) : EmbRow).refId
      = r.refId := by
  cases h1 : (r.refType == rt && r.refId == rid) <;> simp [h1]

/-- The upsert preserves the uniqueness invariant. -/
lemma embUnique_upsert (tbl : List EmbRow) (rt : String) (rid : Nat)
    (vec : List ℚ) (model : String) (h : EmbUnique tbl) :
    EmbUnique (upsertEmbedding tbl rt rid vec model) := by
  unfold upsertEmbedding
  by_cases hany : (tbl.any (fun r => r.refType == rt && r.refId == rid)) = true
  · rw [if_pos hany]
    refine List.Pairwise.map _ (fun a b hab => ?_) h
    rw [(upsert_map_key rt rid vec a).1, (upsert_map_key rt rid vec a).2,
        (upsert_map_key rt rid vec b).1, (upsert_map_key rt rid vec b).2]
    exact hab
  · rw [if_neg hany]
    rw [EmbUnique, List.pairwise_append]
    refine ⟨h, List.pairwise_singleton _ _, fun a ha b hb => ?_⟩
    rw [List.mem_singleton] at hb
    subst hb
    have := List.any_eq_false.mp (Bool.eq_false_iff.mpr hany) a ha
    simp only [Bool.and_eq_true, beq_iff_eq] at this
    simpa using this

/-- The upsert is last-write-wins: afterwards exactly one row matches the key
and it carries the new vector. -/
lemma upsert_last_write_wins (tbl : List EmbRow) (rt : String) (rid : Nat)
    (vec : List ℚ) (model : String) (h : EmbUnique tbl) :
    ((upsertEmbedding tbl rt rid vec model).filter
        (fun r => r.refType == rt && r.refId == rid)).map (fun r => r.embedding)
      = [vec] := by
  unfold upsertEmbedding
  by_cases hany : (tbl.any (fun r => r.refType == rt && r.refId == rid)) = true
  · rw [if_pos hany]
    rw [List.filter_map]
    have hcongr :
        tbl.filter ((fun r : EmbRow => r.refType == rt && r.refId == rid) ∘
          (fun r => if r.refType == rt && r.refId == rid then { r with embedding := vec } else r))
        = tbl.filter (fun r => r.refType == rt && r.refId == rid) := by
      refine List.filter_congr (fun x _ => ?_)
      simp only [Function.comp]
      cases hx : (x.refType == rt && x.refId == rid) with
      | false => simp [hx]
      | true =>
        simp only [Bool.and_eq_true, beq_iff_eq] at hx
        simp [hx.1, hx.2]
    rw [hcongr]
    obtain ⟨w, hw, hwk⟩ := List.any_eq_true.mp hany
    have hlen := filter_key_length_le_one tbl rt rid h
    have hne : tbl.filter (fun r => r.refType == rt && r.refId == rid) ≠ [] := by
      intro hc
      have hwm : w ∈ tbl.filter (fun r => r.refType == rt && r.refId == rid) :=
        List.mem_filter.mpr ⟨hw, hwk⟩
      rw [hc] at hwm
      exact absurd hwm (List.not_mem_nil w)
    cases hf : tbl.filter (fun r => r.refType == rt && r.refId == rid) with
    | nil => exact absurd hf hne
    | cons x xs =>
      rw [hf] at hlen
      have hxs : xs = [] := by
        cases xs with
        | nil => rfl
        | cons y ys => simp at hlen
      subst hxs
      have hxmem : x ∈ tbl.filter (fun r => r.refType == rt && r.refId == rid) := by
        rw [hf]
        exact List.mem_singleton_self x
      have hx : (x.refType == rt && x.refId == rid) = true :=
        (List.mem_filter.mp hxmem).2
      simp only [Bool.and_eq_true, beq_iff_eq] at hx
      simp [hx.1, hx.2]
  · rw [if_neg hany]
    rw [List.filter_append]
    have hnil : tbl.filter (fun r => r.refType == rt && r.refId == rid) = [] :=
      List.filter_eq_nil_iff.mpr (List.any_eq_false.mp (Bool.eq_false_iff.mpr hany))
    simp [hnil]

/-- C3.  After every write through the embedding upsert the table invariant
holds — at most one Embedding row per `(ref_type, ref_id)` — and re-storing
for the same key overwrites the embedding (last-write-wins) instead of adding
a duplicate; `store_document` (and the chunk loop, which calls the same
upsert) therefore preserves the invariant. -/
theorem C3_embedding_unique_upsert (tbl : List EmbRow) (rt : String) (rid : Nat)
    (vec : List ℚ) (model : String) (h : EmbUnique tbl) :
    EmbUnique (upsertEmbedding tbl rt rid vec model) ∧
    ((upsertEmbedding tbl rt rid vec model).filter
        (fun r => r.refType == rt && r.refId == rid)).map (fun r => r.embedding)
      = [vec] ∧
    (∀ (st : DBState) (embed : EmbedFn) (an dt ti mn : String) (content : Str)
        (md : Meta) (tags : List String),
      EmbUnique st.embeddings →
      EmbUnique ((store_document st embed an dt ti content md tags mn).1.embeddings)) := by
  refine ⟨embUnique_upsert tbl rt rid vec model h,
          upsert_last_write_wins tbl rt rid vec model h,
          fun st embed an dt ti mn content md tags hst => ?_⟩
  unfold store_document
  cases hemb : embed (content.take 8000) with
  | error e => simpa using hst
  | ok v => simpa using embUnique_upsert st.embeddings "document" st.nextId v mn hst

/-- Witness for C3 at a concrete one-row table that already holds an embedding
for the key being re-stored. -/
theorem C3_witness :
    EmbUnique [⟨"document", 4, [(1 : ℚ)], "m"⟩] ∧
    ((upsertEmbedding [⟨"document", 4, [(1 : ℚ)], "m"⟩] "document" 4 [(2 : ℚ)] "m").filter
        (fun r => r.refType == "document" && r.refId == 4)).map (fun r => r.embedding)
      = [[(2 : ℚ)]] :=
  ⟨by decide,
   (C3_embedding_unique_upsert [⟨"document", 4, [(1 : ℚ)], "m"⟩] "document" 4
      [(2 : ℚ)] "m" (by decide)).2.1⟩

/-! ## C4: the confidence-gated completion path (code bug) -/

/-- The UPDATE issued by `_update_task_status` binds the plain-text notes as
the new `jsonb` value of `jsonb_set`; when PostgreSQL rejects that literal the
statement raises, the handler rolls back and the function returns `False`
leaving the committed state unchanged. -/
lemma update_task_status_rejected (pg : JsonbOk) (st : DBState) (now : Int)
    (tid : Nat) (newStatus notes : String) (h : pg notes = false) :
    update_task_status pg st now tid newStatus notes = (st, false) := by
  simp [update_task_status, h]

/-- C4 (code bug).  The claim says a verified completion with
`confidence >= 0.7` transitions its task to `done`.  In the code the UPDATE's
`jsonb_set` receives the plain text "Verified by Closer: ..." as its new
`jsonb` value; no JSON value can begin with the letter `V`, so PostgreSQL
rejects the literal (`invalid input syntax for type json`), the UPDATE raises,
`_update_task_status` rolls back and returns `False` — hence no task is ever
transitioned and the update counter stays 0, for every confidence value. -/
theorem C4_completion_update_always_fails (pg : JsonbOk) (st : DBState)
    (now : Int) (comp : Completion) (tid : Nat)
    (hpg : ∀ s, pg ("Verified by Closer: " ++ s) = false)
    (hid : comp.taskId = some tid) :
    process_verified_completions pg st now [comp] = (st, 0) := by
  obtain ⟨otid, oev, oconf⟩ := comp
  obtain rfl : otid = some tid := by simpa using hid
  by_cases hc : (7 : ℚ)/10 ≤ oconf.getD 0 <;>
    simp [process_verified_completions, completion_step, hc,
      update_task_status_rejected, hpg]

/-- Witness for C4: a pending task and a verdict with confidence 0.8; the
completion path performs no transition. -/
theorem C4_witness :
    (∀ s, (fun _ => false : JsonbOk) ("Verified by Closer: " ++ s) = false) ∧
    (⟨some 1, some "email sent", some ((8 : ℚ)/10)⟩ : Completion).taskId = some 1 ∧
    process_verified_completions (fun _ => false)
        ⟨[], [], [], [], [], [⟨1, "send email", "", "pending", 3, none, "closer", none, none, []⟩],
          [], [], 2⟩ 0
        [⟨some 1, some "email sent", some ((8 : ℚ)/10)⟩]
      = (⟨[], [], [], [], [], [⟨1, "send email", "", "pending", 3, none, "closer", none, none, []⟩],
          [], [], 2⟩, 0) :=
  ⟨fun s => rfl, rfl,
   C4_completion_update_always_fails (fun _ => false)
     ⟨[], [], [], [], [], [⟨1, "send email", "", "pending", 3, none, "closer", none, none, []⟩],
       [], [], 2⟩ 0 ⟨some 1, some "email sent", some ((8 : ℚ)/10)⟩ 1
     (fun s => rfl) rfl⟩

/-! ## C5: the pipeline never reopens a done task -/

/-- Each completion step leaves the state unchanged: its UPDATE is always
rejected by the jsonb literal parse. -/
lemma completion_step_fst (pg : JsonbOk) (now : Int)
    (hV : ∀ s, pg ("Verified by Closer: " ++ s) = false)
    (acc : DBState × Nat) (comp : Completion) :
    (completion_step pg now acc comp).1 = acc.1 := by
  obtain ⟨otid, oev, oconf⟩ := comp
  cases otid with
  | none => rfl
  | some tid =>
    by_cases hc : (7 : ℚ)/10 ≤ oconf.getD 0 <;>
      simp [completion_step, hc, update_task_status_rejected, hV]

/-- Each progress step leaves the state unchanged, likewise. -/
lemma progress_step_fst (pg : JsonbOk) (now : Int)
    (hP : ∀ s, pg ("Partial progress by Closer: " ++ s) = false)
    (acc : DBState × Nat) (upd : ProgressUpdate) :
    (progress_step pg now acc upd).1 = acc.1 := by
  obtain ⟨otid, onotes, ostat⟩ := upd
  cases otid with
  | none => rfl
  | some tid =>
    simp [progress_step, update_task_status_rejected, hP]

/-- Folding a step that preserves the state preserves the state. -/
lemma foldl_fst_const {α : Type} (step : (DBState × Nat) → α → DBState × Nat)
    (h : ∀ acc a, (step acc a).1 = acc.1) :
    ∀ (l : List α) (acc : DBState × Nat), (l.foldl step acc).1 = acc.1 := by
  intro l
  induction l with
  | nil => intro acc; rfl
  | cons a t ih => intro acc; rw [List.foldl_cons, ih (step acc a), h acc a]

/-- Folding a step that preserves the task table preserves the task table. -/
lemma foldl_pair_tasks {α : Type} (step : (DBState × Nat) → α → DBState × Nat)
    (h : ∀ acc a, (step acc a).1.tasks = acc.1.tasks) :
    ∀ (l : List α) (acc : DBState × Nat), (l.foldl step acc).1.tasks = acc.1.tasks := by
  intro l
  induction l with
  | nil => intro acc; rfl
  | cons a t ih => intro acc; rw [List.foldl_cons, ih (step acc a), h acc a]

/-- Folding a state step that preserves the task table preserves it. -/
lemma foldl_state_tasks {α : Type} (step : DBState → α → DBState)
    (h : ∀ s a, (step s a).tasks = s.tasks) :
    ∀ (l : List α) (s : DBState), (l.foldl step s).tasks = s.tasks := by
  intro l
  induction l with
  | nil => intro s; rfl
  | cons a t ih => intro s; rw [List.foldl_cons, ih (step s a), h s a]

/-- Applying a whole verdict never changes the task table (every task UPDATE
is rejected; the event inserts touch only the event table). -/
lemma apply_verdict_tasks (pg : JsonbOk) (now : Int) (v : Verdict)
    (hV : ∀ s, pg ("Verified by Closer: " ++ s) = false)
    (hP : ∀ s, pg ("Partial progress by Closer: " ++ s) = false)
    (st : DBState) : (apply_verdict pg st now v).1.tasks = st.tasks := by
  unfold apply_verdict
  simp only []
  rw [foldl_state_tasks follow_up_step (fun s a => rfl)]
  rw [store_verification_events, foldl_pair_tasks verification_event_step (fun acc a => rfl)]
  rw [process_progress_updates,
    foldl_fst_const (progress_step pg now) (progress_step_fst pg now hP)]
  rw [process_verified_completions,
    foldl_fst_const (completion_step pg now) (completion_step_fst pg now hV)]

/-- C5.  For every sequence of verdict applications — arbitrary
verdict-provided task ids and statuses — the task table is unchanged (every
status UPDATE is rejected by the jsonb literal parse and rolled back), so in
particular no task whose status is `done` is ever transitioned back to a
non-done status. -/
theorem C5_done_tasks_never_reopened (pg : JsonbOk) (st : DBState) (now : Int)
    (hV : ∀ s, pg ("Verified by Closer: " ++ s) = false)
    (hP : ∀ s, pg ("Partial progress by Closer: " ++ s) = false) :
    (∀ v : Verdict, (apply_verdict pg st now v).1.tasks = st.tasks) ∧
    (∀ vs : List Verdict,
      (vs.foldl (fun s v => (apply_verdict pg s now v).1) st).tasks = st.tasks) ∧
    (∀ (vs : List Verdict) (t : TaskRow), t ∈ st.tasks → t.status = "done" →
      t ∈ (vs.foldl (fun s v => (apply_verdict pg s now v).1) st).tasks) := by
  have hfold : ∀ (vs : List Verdict) (s : DBState),
      (vs.foldl (fun s v => (apply_verdict pg s now v).1) s).tasks = s.tasks := by
    intro vs
    induction vs with
    | nil => intro s; rfl
    | cons v t ih =>
      intro s
      rw [List.foldl_cons, ih, apply_verdict_tasks pg now v hV hP]
  exact ⟨fun v => apply_verdict_tasks pg now v hV hP st,
         fun vs => hfold vs st,
         fun vs t ht _ => by rw [hfold vs st]; exact ht⟩

/-- Witness for C5: one done task, and a verdict whose partial update names it
with status `pending`; the task table is untouched. -/
theorem C5_witness :
    (∀ s, (fun _ => false : JsonbOk) ("Verified by Closer: " ++ s) = false) ∧
    ((([⟨[], [⟨some 3, some "half", some "pending"⟩], [], []⟩] : List Verdict).foldl
        (fun s v => (apply_verdict (fun _ => false) s 0 v).1)
        ⟨[], [], [], [], [], [⟨3, "ship it", "", "done", 1, none, "human", none, some 9, []⟩],
          [], [], 4⟩).tasks
      = [⟨3, "ship it", "", "done", 1, none, "human", none, some 9, []⟩]) :=
  ⟨fun s => rfl,
   (C5_done_tasks_never_reopened (fun _ => false)
      ⟨[], [], [], [], [], [⟨3, "ship it", "", "done", 1, none, "human", none, some 9, []⟩],
        [], [], 4⟩ 0 (fun s => rfl) (fun s => rfl)).2.1
     [⟨[], [⟨some 3, some "half", some "pending"⟩], [], []⟩]⟩

/-! ## C2: search returns at most `limit` results, ranked by score -/

/-- The insertion sort by key is sorted. -/
lemma sortByKey_sorted {α κ : Type} [LinearOrder κ] (key : α → κ) (l : List α) :
    List.Pairwise (fun a b => key a ≤ key b) (sortByKey key l) := by
  unfold sortByKey
  exact @List.sorted_insertionSort α (fun a b => key a ≤ key b)
    (fun a b => inferInstanceAs (Decidable (key a ≤ key b)))
    ⟨fun a b => le_total (key a) (key b)⟩
    ⟨fun a b c hab hbc => le_trans hab hbc⟩ l

/-- C2.  `search_memory` (when the query embeds) returns at most `limit`
hydrated results, ordered by similarity score descending (no result has a
score lower than one ranked after it), and every returned result is backed by
a content row that `_fetch_content` still finds — a candidate whose backing
row is gone is silently omitted rather than raising, so fewer than `limit`
rows may come back. -/
theorem C2_search_memory_ranked (st : DBState) (dist : List ℚ → List ℚ → ℚ)
    (embed : EmbedFn) (query : Str) (qvec : List ℚ) (limit : Nat)
    (rtF : Option String) (hq : embed query = Except.ok qvec) :
    search_memory st dist embed query limit rtF
      = Except.ok (search_rank st dist qvec limit rtF) ∧
    (search_rank st dist qvec limit rtF).length ≤ limit ∧
    List.Pairwise (fun a b => b.score ≤ a.score) (search_rank st dist qvec limit rtF) ∧
    ∀ h ∈ search_rank st dist qvec limit rtF,
      fetch_content st h.refType h.refId = some h.row := by
  refine ⟨by simp [search_memory, hq], ?_, ?_, ?_⟩
  · unfold search_rank
    exact le_trans (List.length_filterMap_le _ _) (List.length_take_le _ _)
  · unfold search_rank
    have hs := sortByKey_sorted (fun e : EmbRow => dist e.embedding qvec)
      (st.embeddings.filter (fun e =>
        match rtF with
        | none => true
        | some rt => e.refType == rt))
    have htake := List.Pairwise.sublist (List.take_sublist limit _) hs
    refine List.Pairwise.filterMap _ (fun a b hab x hx y hy => ?_) htake
    rw [Option.mem_def, Option.map_eq_some'] at hx hy
    obtain ⟨rx, _, hmkx⟩ := hx
    obtain ⟨ry, _, hmky⟩ := hy
    rw [← hmkx, ← hmky]
    exact sub_le_sub_left hab 1
  · intro h hmem
    unfold search_rank at hmem
    rw [List.mem_filterMap] at hmem
    obtain ⟨e, _, heq⟩ := hmem
    rw [Option.map_eq_some'] at heq
    obtain ⟨row, hrow, hmk⟩ := heq
    rw [← hmk]
    exact hrow

/-- Witness for C2 at a concrete store holding two embedding rows, one of
which has no backing document row (it is omitted, not an error). -/
theorem C2_witness :
    ((fun _ => Except.ok [(0 : ℚ)] : EmbedFn) "query".data = Except.ok [(0 : ℚ)]) ∧
    (search_rank
        ⟨[⟨5, "note", "onboarding", "t", [], [], []⟩], [], [], [], [], [],
          [⟨"document", 5, [(1 : ℚ)], "m"⟩, ⟨"document", 6, [(2 : ℚ)], "m"⟩], [], 7⟩
        (fun a b => (a.headD 0) - (b.headD 0)) [(0 : ℚ)] 10 none).length ≤ 10 :=
  ⟨rfl,
   (C2_search_memory_ranked
      ⟨[⟨5, "note", "onboarding", "t", [], [], []⟩], [], [], [], [], [],
        [⟨"document", 5, [(1 : ℚ)], "m"⟩, ⟨"document", 6, [(2 : ℚ)], "m"⟩], [], 7⟩
      (fun a b => (a.headD 0) - (b.headD 0)) (fun _ => Except.ok [(0 : ℚ)])
      "query".data [(0 : ℚ)] 10 none rfl).2.1⟩

/-! ## C7: fenced-response parsing and the empty-verdict fallback -/

/-- If `dropWhile` keeps a cons unchanged, its head fails the predicate. -/
lemma head_not_space_of_dropWhile_self (c : Char) (m : Str)
    (h : List.dropWhile pySpace (c :: m) = c :: m) : pySpace c = false := by
  cases hp : pySpace c with
  | false => rfl
  | true =>
    rw [List.dropWhile_cons_of_pos hp] at h
    have hle := List.Sublist.length_le (@List.dropWhile_sublist Char m pySpace)
    rw [h] at hle
    simp at hle

/-- A string with non-whitespace first and last characters is unchanged by
`strip()`. -/
lemma stripChars_of_ends (c1 c2 : Char) (m : Str) (h1 : pySpace c1 = false)
    (h2 : pySpace c2 = false) :
    stripChars (c1 :: (m ++ [c2])) = c1 :: (m ++ [c2]) := by
  unfold stripChars
  rw [List.dropWhile_cons_of_neg (by simp [h1])]
  rw [show (c1 :: (m ++ [c2])).reverse = c2 :: (m.reverse ++ [c1]) from by simp]
  rw [List.dropWhile_cons_of_neg (by simp [h2])]
  simp

/-- Stripping after appending a trailing newline recovers a body that has no
leading or trailing whitespace. -/
lemma strip_append_newline (body : Str)
    (hb1 : body.dropWhile pySpace = body)
    (hb2 : body.reverse.dropWhile pySpace = body.reverse) :
    stripChars (body ++ ['\n']) = body := by
  cases body with
  | nil => decide
  | cons c m =>
    have hc : pySpace c = false := head_not_space_of_dropWhile_self c m hb1
    unfold stripChars
    rw [show ((c :: m) ++ ['\n']) = c :: (m ++ ['\n']) from rfl]
    rw [List.dropWhile_cons_of_neg (by simp [hc])]
    rw [show (c :: (m ++ ['\n'])).reverse = '\n' :: (c :: m).reverse from by simp]
    rw [List.dropWhile_cons_of_pos (by decide)]
    rw [hb2]
    exact List.reverse_reverse _

/-- The opening-fence step on a fenced payload. -/
lemma dropFenceStart_fenced (body : Str) :
    dropFenceStart (fence ++ '\n' :: body ++ '\n' :: fence) = body ++ '\n' :: fence := by
  have h1 : List.isPrefixOf fence (fence ++ '\n' :: body ++ '\n' :: fence) = true :=
    List.isPrefixOf_iff_prefix.mpr (List.prefix_append fence ('\n' :: body ++ '\n' :: fence))
  have h2 : List.contains (fence ++ '\n' :: body ++ '\n' :: fence) '\n' = true :=
    List.elem_iff.mpr (by simp)
  have h3 : List.dropWhile (fun ch => !(ch == '\n')) (fence ++ '\n' :: body ++ '\n' :: fence)
      = '\n' :: (body ++ '\n' :: fence) := by
    rw [show fence ++ '\n' :: body ++ '\n' :: fence
        = Char.ofNat 96 :: Char.ofNat 96 :: Char.ofNat 96 :: '\n' :: (body ++ '\n' :: fence)
      from by simp [fence]]
    rw [List.dropWhile_cons_of_pos (by decide), List.dropWhile_cons_of_pos (by decide),
      List.dropWhile_cons_of_pos (by decide), List.dropWhile_cons_of_neg (by decide)]
  unfold dropFenceStart
  simp only [h1, h2, if_true]
  rw [h3]
  rfl

/-- The closing-fence step on a payload still carrying its trailing fence. -/
lemma dropFenceEnd_fenced (body : Str) :
    dropFenceEnd (body ++ '\n' :: fence) = body ++ ['\n'] := by
  have hsuf : List.isSuffixOf fence (body ++ '\n' :: fence) = true :=
    List.isSuffixOf_iff_suffix.mpr ⟨body ++ ['\n'], by simp⟩
  have hlen : (body ++ '\n' :: fence).length - 3 = body.length + 1 := by
    simp [fence]
  unfold dropFenceEnd
  rw [hsuf, hlen]
  simp only [if_true]
  rw [List.take_append_eq_append_take,
    List.take_of_length_le (by omega), show body.length + 1 - body.length = 1 from by omega]
  rfl

/-- C7.  `_parse_response` tolerates fenced-code-block wrapping — a payload
wrapped as ```` ``` … ``` ```` is stripped down to its body before decoding —
and on any decode failure it falls back to the empty verdict; applying the
empty verdict performs zero task updates and zero event inserts and leaves
the store untouched, so no exception escapes and no task is mutated. -/
theorem C7_parse_fallback (parse : Str → Option Verdict) (pg : JsonbOk)
    (st : DBState) (now : Int) :
    (∀ raw, parse (strip_fences raw) = none → parse_response parse raw = emptyVerdict) ∧
    apply_verdict pg st now emptyVerdict = (st, (0, 0, 0, 0)) ∧
    (∀ body : Str, body.dropWhile pySpace = body →
      body.reverse.dropWhile pySpace = body.reverse →
      strip_fences (fence ++ '\n' :: body ++ '\n' :: fence) = body) := by
  refine ⟨fun raw hfail => ?_, rfl, fun body hb1 hb2 => ?_⟩
  · simp [parse_response, hfail]
  · unfold strip_fences
    have hshape : fence ++ '\n' :: body ++ '\n' :: fence
        = Char.ofNat 96 :: ((Char.ofNat 96 :: Char.ofNat 96 :: '\n' :: body ++ ['\n', Char.ofNat 96, Char.ofNat 96]) ++ [Char.ofNat 96]) := by
      simp [fence]
    rw [hshape, stripChars_of_ends _ _ _ (by decide) (by decide), ← hshape]
    rw [dropFenceStart_fenced, dropFenceEnd_fenced]
    exact strip_append_newline body hb1 hb2

/-- Witness for C7: a parser that always fails, an arbitrary raw response, and
a concrete fenced body. -/
theorem C7_witness :
    ((fun _ => none : Str → Option Verdict) (strip_fences "nonsense".data) = none) ∧
    parse_response (fun _ => none) "nonsense".data = emptyVerdict ∧
    ("ok".data.dropWhile pySpace = "ok".data) ∧
    strip_fences (fence ++ '\n' :: "ok".data ++ '\n' :: fence) = "ok".data :=
  ⟨rfl,
   (C7_parse_fallback (fun _ => none) (fun _ => false)
      ⟨[], [], [], [], [], [], [], [], 0⟩ 0).1 "nonsense".data rfl,
   by decide,
   (C7_parse_fallback (fun _ => none) (fun _ => false)
      ⟨[], [], [], [], [], [], [], [], 0⟩ 0).2.2 "ok".data (by decide) (by decide)⟩

/-! ## C8: the 10,000-character chunking scenario -/

/-- Join of a list with at least two paragraphs. -/
lemma joinParas_cons (p : Str) (ps : List Str) (h : ps ≠ []) :
    joinParas (p :: ps) = p ++ '\n' :: '\n' :: joinParas ps := by
  cases ps with
  | nil => exact absurd rfl h
  | cons q qs => rfl

/-- `split` never returns an empty list of parts. -/
lemma splitParas_ne_nil (l : Str) : splitParas l ≠ [] := by
  induction l using splitParas.induct with
  | case1 => simp [splitParas]
  | case2 c => simp [splitParas]
  | case3 c1 c2 rest h ih => simp [splitParas, if_pos h]
  | case4 c1 c2 rest h hs ih => simp [splitParas, if_neg h, hs]
  | case5 c1 c2 rest h p ps hs ih => simp [splitParas, if_neg h, hs]

/-- Joining the split parts recovers the original string (Python:
`"\n\n".join(s.split("\n\n")) == s`). -/
lemma join_split (l : Str) : joinParas (splitParas l) = l := by
  induction l using splitParas.induct with
  | case1 => rfl
  | case2 c => rfl
  | case3 c1 c2 rest h ih =>
    obtain ⟨h1, h2⟩ := h
    subst h1; subst h2
    rw [show splitParas ('\n' :: '\n' :: rest) = [] :: splitParas rest from by
      simp [splitParas]]
    rw [joinParas_cons [] (splitParas rest) (splitParas_ne_nil rest), ih]
    rfl
  | case4 c1 c2 rest h hs ih => exact absurd hs (splitParas_ne_nil _)
  | case5 c1 c2 rest h p ps hs ih =>
    rw [show splitParas (c1 :: c2 :: rest) = (c1 :: p) :: ps from by
      simp [splitParas, if_neg h, hs]]
    rw [hs] at ih
    cases ps with
    | nil =>
      rw [show joinParas [c1 :: p] = c1 :: p from rfl]
      rw [show joinParas [p] = p from rfl] at ih
      rw [ih]
    | cons q qs =>
      rw [joinParas_cons _ _ (by simp)]
      rw [joinParas_cons _ _ (by simp)] at ih
      rw [show (c1 :: p) ++ '\n' :: '\n' :: joinParas (q :: qs)
          = c1 :: (p ++ '\n' :: '\n' :: joinParas (q :: qs)) from rfl]
      rw [ih]

/-- Total character mass of a paragraph list once joined: paragraph lengths
plus two separator characters between consecutive paragraphs. -/
def massP : List Str → Nat
  | [] => 0
  | [p] => p.length
  | p :: ps => p.length + 2 + massP ps

lemma joinParas_length (ps : List Str) : (joinParas ps).length = massP ps := by
  induction ps with
  | nil => rfl
  | cons p qs ih =>
    cases qs with
    | nil => rfl
    | cons q qs2 =>
      rw [joinParas_cons p (q :: qs2) (by simp)]
      rw [show massP (p :: q :: qs2) = p.length + 2 + massP (q :: qs2) from rfl]
      rw [← ih]
      simp
      omega

/-- `strip()` gives the empty string exactly on all-whitespace input. -/
lemma stripChars_eq_nil_iff (l : Str) :
    stripChars l = [] ↔ ∀ c ∈ l, pySpace c = true := by
  unfold stripChars
  rw [List.reverse_eq_nil_iff, List.dropWhile_eq_nil_iff]
  constructor
  · intro h c hc
    have hl := List.takeWhile_append_dropWhile pySpace l
    rw [← hl, List.mem_append] at hc
    cases hc with
    | inl h1 => exact List.mem_takeWhile_imp h1
    | inr h2 => exact h c (List.mem_reverse.mpr h2)
  · intro h c hc
    exact h c ((@List.dropWhile_sublist Char l pySpace).subset (List.mem_reverse.mp hc))

/-- If the stripped string is all whitespace, so was the original. -/
lemma allSpace_of_allSpace_strip (l : Str)
    (h : ∀ c ∈ stripChars l, pySpace c = true) : ∀ c ∈ l, pySpace c = true := by
  intro c hc
  have hl := List.takeWhile_append_dropWhile pySpace l
  rw [← hl, List.mem_append] at hc
  cases hc with
  | inl h1 => exact List.mem_takeWhile_imp h1
  | inr h2 =>
    have hd2 := List.takeWhile_append_dropWhile pySpace (List.dropWhile pySpace l).reverse
    have hc2 : c ∈ (List.dropWhile pySpace l).reverse := List.mem_reverse.mpr h2
    rw [← hd2, List.mem_append] at hc2
    cases hc2 with
    | inl h3 => exact List.mem_takeWhile_imp h3
    | inr h4 =>
      refine h c ?_
      show c ∈ ((List.dropWhile pySpace l).reverse.dropWhile pySpace).reverse
      exact List.mem_reverse.mpr h4

/-- A nonblank string strips to a nonblank string. -/
lemma strip_strip_ne (l : Str) (h : stripChars l ≠ []) :
    stripChars (stripChars l) ≠ [] := fun hc =>
  h ((stripChars_eq_nil_iff l).mpr
    (allSpace_of_allSpace_strip l ((stripChars_eq_nil_iff (stripChars l)).mp hc)))

/-- Appending in front of a nonblank string keeps it nonblank. -/
lemma stripChars_append_ne (l p : Str) (h : stripChars p ≠ []) :
    stripChars (l ++ p) ≠ [] := by
  intro hc
  apply h
  rw [stripChars_eq_nil_iff] at hc ⊢
  exact fun c hcp => hc c (List.mem_append.mpr (Or.inr hcp))

/-- A nonblank string is nonempty. -/
lemma ne_nil_of_strip_ne (l : Str) (h : stripChars l ≠ []) : l ≠ [] := by
  intro hl
  subst hl
  exact h rfl

/-- Splitting a newline-free string yields a single paragraph. -/
lemma splitParas_no_newline : ∀ l : Str, (∀ c ∈ l, c ≠ '\n') → splitParas l = [l] := by
  intro l
  induction l using splitParas.induct with
  | case1 => intro _; rfl
  | case2 c => intro _; rfl
  | case3 c1 c2 rest h ih =>
    intro hno
    exact absurd h.1 (hno c1 (List.mem_cons_self c1 _))
  | case4 c1 c2 rest h hs ih => exact absurd hs (splitParas_ne_nil _)
  | case5 c1 c2 rest h p ps hs ih =>
    intro hno
    have hih := ih (fun c hc => hno c (List.mem_cons_of_mem c1 hc))
    rw [hs] at hih
    obtain ⟨hp, hps⟩ : p = c2 :: rest ∧ ps = [] := by
      exact ⟨(List.cons.injEq p ps (c2 :: rest) []).mp hih |>.1,
             (List.cons.injEq p ps (c2 :: rest) []).mp hih |>.2⟩
    subst hp; subst hps
    simp [splitParas, if_neg h, hs]

/-- Splitting past a newline-free paragraph followed by a separator. -/
lemma splitParas_append_sep : ∀ (p : Str) (rest : Str),
    (∀ c ∈ p, c ≠ '\n') →
    splitParas (p ++ '\n' :: '\n' :: rest) = p :: splitParas rest := by
  intro p
  induction p with
  | nil =>
    intro rest _
    simp [splitParas]
  | cons c p2 ih =>
    intro rest hp
    have hc : c ≠ '\n' := hp c (List.mem_cons_self c p2)
    cases p2 with
    | nil =>
      have hbase : splitParas ('\n' :: '\n' :: rest) = [] :: splitParas rest := by
        simp [splitParas]
      simp [splitParas, hc, hbase]
    | cons d p3 =>
      have ihr := ih rest (fun x hx => hp x (List.mem_cons_of_mem c hx))
      simp only [List.cons_append] at ihr ⊢
      simp [splitParas, hc, ihr]

/-- Splitting the join of newline-free paragraphs recovers them. -/
lemma split_join : ∀ ps : List Str, ps ≠ [] →
    (∀ p ∈ ps, ∀ c ∈ p, c ≠ '\n') → splitParas (joinParas ps) = ps := by
  intro ps
  induction ps with
  | nil => intro h; exact absurd rfl h
  | cons p qs ih =>
    intro _ hnl
    cases qs with
    | nil =>
      rw [show joinParas [p] = p from rfl]
      exact splitParas_no_newline p (hnl p (List.mem_cons_self p []))
    | cons q qs2 =>
      rw [joinParas_cons p (q :: qs2) (by simp)]
      rw [splitParas_append_sep p _ (hnl p (List.mem_cons_self p _))]
      rw [ih (by simp) (fun r hr => hnl r (List.mem_cons_of_mem p hr))]

/-- Mass bound for the packing loop: when every paragraph fits in a chunk,
each produced chunk accounts for at most `chunkSize + 2` characters of the
remaining mass, so the chunk count is bounded below by the mass. -/
lemma chunkLoop_length_bound (size : Nat) :
    ∀ (ps : List Str) (cur : Str) (idx : Nat),
      cur.length ≤ size →
      (∀ p ∈ ps, p.length ≤ size ∧ stripChars p ≠ []) →
      (cur = [] ∨ stripChars cur ≠ []) →
      massP ps + cur.length + (if cur ≠ [] ∧ ps ≠ [] then 2 else 0)
        ≤ (chunkLoop size ps cur idx).length * (size + 2) := by
  intro ps
  induction ps with
  | nil =>
    intro cur idx hcur _ hcnb
    cases hcnb with
    | inl h => subst h; simp [chunkLoop, massP]
    | inr h =>
      rw [chunkLoop, if_neg h]
      simp [massP]
      omega
  | cons p ps ih =>
    intro cur idx hcur hps hcnb
    have hp := hps p (List.mem_cons_self p ps)
    have hpne : p ≠ [] := ne_nil_of_strip_ne p hp.2
    have hpstail : ∀ q ∈ ps, q.length ≤ size ∧ stripChars q ≠ [] :=
      fun q hq => hps q (List.mem_cons_of_mem p hq)
    by_cases hflush : size < cur.length + p.length + 2 ∧ cur ≠ []
    · rw [chunkLoop, if_pos hflush]
      rw [List.length_cons, Nat.succ_mul]
      have hrec := ih p (idx + 1) hp.1 hpstail (Or.inr hp.2)
      rw [if_pos ⟨hflush.2, by simp⟩]
      cases ps with
      | nil =>
        rw [if_neg (by simp)] at hrec
        rw [show massP [p] = p.length from rfl]
        rw [show massP ([] : List Str) = 0 from rfl] at hrec
        omega
      | cons q qs =>
        rw [if_pos ⟨hpne, by simp⟩] at hrec
        rw [show massP (p :: q :: qs) = p.length + 2 + massP (q :: qs) from rfl]
        omega
    · rw [chunkLoop, if_neg hflush]
      by_cases hc0 : cur = []
      · subst hc0
        rw [if_pos rfl]
        have hrec := ih p idx hp.1 hpstail (Or.inr hp.2)
        rw [if_neg (by simp)]
        cases ps with
        | nil =>
          rw [if_neg (by simp)] at hrec
          rw [show massP [p] = p.length from rfl]
          rw [show massP ([] : List Str) = 0 from rfl] at hrec
          simp only [List.length_nil]
          omega
        | cons q qs =>
          rw [if_pos ⟨hpne, by simp⟩] at hrec
          rw [show massP (p :: q :: qs) = p.length + 2 + massP (q :: qs) from rfl]
          simp only [List.length_nil]
          omega
      · have hgrow : cur.length + p.length + 2 ≤ size := by
          rcases Nat.lt_or_ge size (cur.length + p.length + 2) with hlt | hge
          · exact absurd ⟨hlt, hc0⟩ hflush
          · omega
        rw [if_neg hc0]
        have hnb2 : stripChars (cur ++ '\n' :: '\n' :: p) ≠ [] := by
          rw [show (cur ++ '\n' :: '\n' :: p) = cur ++ (['\n', '\n'] ++ p) from by simp]
          exact stripChars_append_ne cur _ (stripChars_append_ne ['\n', '\n'] p hp.2)
        have hlen2 : (cur ++ '\n' :: '\n' :: p).length = cur.length + 2 + p.length := by
          simp
          omega
        have hne2 : (cur ++ '\n' :: '\n' :: p) ≠ [] := by
          cases cur <;> simp
        have hrec := ih (cur ++ '\n' :: '\n' :: p) idx (by omega) hpstail (Or.inr hnb2)
        rw [if_pos ⟨hc0, by simp⟩]
        cases ps with
        | nil =>
          rw [if_neg (by simp)] at hrec
          rw [show massP [p] = p.length from rfl]
          rw [show massP ([] : List Str) = 0 from rfl, hlen2] at hrec
          omega
        | cons q qs =>
          rw [if_pos ⟨hne2, by simp⟩] at hrec
          rw [show massP (p :: q :: qs) = p.length + 2 + massP (q :: qs) from rfl]
          rw [hlen2] at hrec
          omega

/-- Every chunk the packing loop emits has nonblank (hence non-empty)
content, provided the current chunk and all remaining paragraphs are
nonblank. -/
lemma chunkLoop_content_nonblank (size : Nat) :
    ∀ (ps : List Str) (cur : Str) (idx : Nat),
      (∀ p ∈ ps, stripChars p ≠ []) →
      (cur = [] ∨ stripChars cur ≠ []) →
      ∀ ch ∈ chunkLoop size ps cur idx, stripChars ch.content ≠ [] := by
  intro ps
  induction ps with
  | nil =>
    intro cur idx _ hcnb ch hch
    cases hcnb with
    | inl h =>
      subst h
      simp [chunkLoop, stripChars] at hch
    | inr h =>
      rw [chunkLoop, if_neg h] at hch
      rw [List.mem_singleton] at hch
      subst hch
      exact strip_strip_ne cur h
  | cons p ps ih =>
    intro cur idx hps hcnb ch hch
    have hp := hps p (List.mem_cons_self p ps)
    have hpstail : ∀ q ∈ ps, stripChars q ≠ [] :=
      fun q hq => hps q (List.mem_cons_of_mem p hq)
    by_cases hflush : size < cur.length + p.length + 2 ∧ cur ≠ []
    · rw [chunkLoop, if_pos hflush] at hch
      rw [List.mem_cons] at hch
      cases hch with
      | inl h =>
        subst h
        cases hcnb with
        | inl hnil => exact absurd hnil hflush.2
        | inr hnb => exact strip_strip_ne cur hnb
      | inr h => exact ih p (idx + 1) hpstail (Or.inr hp) ch h
    · rw [chunkLoop, if_neg hflush] at hch
      by_cases hc0 : cur = []
      · rw [if_pos hc0] at hch
        exact ih p idx hpstail (Or.inr hp) ch hch
      · rw [if_neg hc0] at hch
        have hnb2 : stripChars (cur ++ '\n' :: '\n' :: p) ≠ [] := by
          rw [show (cur ++ '\n' :: '\n' :: p) = cur ++ (['\n', '\n'] ++ p) from by simp]
          exact stripChars_append_ne cur _ (stripChars_append_ne ['\n', '\n'] p hp)
        exact ih _ idx hpstail (Or.inr hnb2) ch hch

/-- The chunk-storage loop with a succeeding embedding provider: it commits,
appends one DocumentChunk row per nonblank chunk carrying the enumerate index
as `chunk_index`, and stamps every row with the document id. -/
lemma store_chunk_rows_spec (embed : EmbedFn) (g : Str → List ℚ) (mn : String)
    (docId : Nat) (hembed : ∀ s, embed s = Except.ok (g s)) :
    ∀ (cs : List Chunk) (st : DBState) (idx : Nat),
      (∀ ch ∈ cs, stripChars ch.content ≠ []) →
      ∃ st2 rows,
        store_chunk_rows embed mn docId st cs idx = Except.ok st2 ∧
        st2.chunks = st.chunks ++ rows ∧
        rows.map (fun r => r.chunkIndex) = List.range' idx cs.length ∧
        (∀ r ∈ rows, r.documentId = docId) := by
  intro cs
  induction cs with
  | nil =>
    intro st idx _
    exact ⟨st, [], rfl, by simp, by simp, by simp⟩
  | cons ch rest ih =>
    intro st idx h
    have hch := h ch (List.mem_cons_self ch rest)
    have hstep : store_chunk_rows embed mn docId st (ch :: rest) idx
        = store_chunk_rows embed mn docId
            { st with
              nextId := st.nextId + 1,
              chunks := st.chunks ++ [ChunkRow.mk st.nextId docId idx ch.content ch.metadata],
              embeddings := upsertEmbedding st.embeddings "document_chunk" st.nextId
                (g (ch.content.take 8000)) mn }
            rest (idx + 1) := by
      simp [store_chunk_rows, hch, hembed]
    obtain ⟨st2, rows, h1, h2, h3, h4⟩ := ih
      { st with
        nextId := st.nextId + 1,
        chunks := st.chunks ++ [ChunkRow.mk st.nextId docId idx ch.content ch.metadata],
        embeddings := upsertEmbedding st.embeddings "document_chunk" st.nextId
          (g (ch.content.take 8000)) mn }
      (idx + 1) (fun c hc => h c (List.mem_cons_of_mem ch hc))
    refine ⟨st2, ChunkRow.mk st.nextId docId idx ch.content ch.metadata :: rows,
      ?_, ?_, ?_, ?_⟩
    · rw [hstep, h1]
    · rw [h2]
      simp
    · rw [List.length_cons, List.range'_succ]
      simp [h3]
    · intro r hr
      rw [List.mem_cons] at hr
      cases hr with
      | inl hh => rw [hh]
      | inr hh => exact h4 r hh

/-- C8, counterexample to the claim as stated: a 10,000-character document
with no paragraph break at all (10,000 copies of `a`) is split into a single
paragraph, so `_chunk_content` with target 3000 produces exactly one chunk —
not at least three. -/
theorem C8_counterexample :
    (List.replicate 10000 'a').length = 10000 ∧
    ¬ 3 ≤ (chunk_content (List.replicate 10000 'a') 3000).length := by
  constructor
  · exact List.length_replicate 10000 'a'
  · have hno : ∀ c ∈ List.replicate 10000 'a', c ≠ '\n' := by
      intro c hc
      rw [List.mem_replicate] at hc
      rw [hc.2]
      decide
    have hsplit := splitParas_no_newline _ hno
    have hdrop : List.dropWhile pySpace (List.replicate 10000 'a')
        = List.replicate 10000 'a' := by
      rw [show (10000 : Nat) = 9999 + 1 from rfl, List.replicate_succ]
      exact List.dropWhile_cons_of_neg (by decide)
    have hstrip : stripChars (List.replicate 10000 'a') = List.replicate 10000 'a' := by
      unfold stripChars
      rw [hdrop, List.reverse_replicate, hdrop, List.reverse_replicate]
    have hne : stripChars (List.replicate 10000 'a') ≠ [] := by
      rw [hstrip]
      intro h
      have hlen := congrArg List.length h
      rw [List.length_replicate, List.length_nil] at hlen
      exact absurd hlen (by omega)
    have hgt : ¬ ((List.replicate 10000 'a').length ≤ 3000) := by
      rw [List.length_replicate]
      omega
    rw [chunk_content, if_neg hgt, hsplit]
    rw [chunkLoop, if_neg (fun hcon => hcon.2 rfl)]
    rw [if_pos rfl]
    rw [chunkLoop, if_neg hne]
    rw [List.length_singleton]
    omega

/-- C8, as amended: for a 10,000-character document whose paragraphs each fit
the 3000-character target and are nonblank, storing it produces at least 3
chunks (in fact the mass bound forces 4), every chunk is non-empty, and the
stored `chunk_index` values form the contiguous 0-based sequence
`0, 1, …, n-1` with no gaps. -/
theorem C8_chunking_amended (st : DBState) (embed : EmbedFn) (g : Str → List ℚ)
    (mn : String) (nz : Normalized)
    (hembed : ∀ s, embed s = Except.ok (g s))
    (hchunks : nz.chunks = [])
    (hfresh : ∀ c ∈ st.chunks, c.documentId ≠ st.nextId)
    (hlen : nz.content.length = 10000)
    (hpara : ∀ p ∈ splitParas nz.content, p.length ≤ 3000 ∧ stripChars p ≠ []) :
    3 ≤ (chunk_content nz.content 3000).length ∧
    (∀ ch ∈ chunk_content nz.content 3000, ch.content ≠ []) ∧
    ∃ st2, store_normalized st embed mn nz = Except.ok (st2, st.nextId) ∧
      (st2.chunks.filter (fun c => c.documentId == st.nextId)).map (fun c => c.chunkIndex)
        = List.range (chunk_content nz.content 3000).length := by
  have hgt : ¬ (nz.content.length ≤ 3000) := by omega
  have hcc : chunk_content nz.content 3000
      = chunkLoop 3000 (splitParas nz.content) [] 0 := by
    rw [chunk_content, if_neg hgt]
  have hmass : massP (splitParas nz.content) = 10000 := by
    rw [← joinParas_length, join_split, hlen]
  have hbound := chunkLoop_length_bound 3000 (splitParas nz.content) [] 0
    (by simp) hpara (Or.inl rfl)
  rw [if_neg (fun hcon => hcon.1 rfl)] at hbound
  rw [hmass, List.length_nil] at hbound
  have hk : 3 ≤ (chunkLoop 3000 (splitParas nz.content) [] 0).length := by omega
  have hnb := chunkLoop_content_nonblank 3000 (splitParas nz.content) [] 0
    (fun p hp => (hpara p hp).2) (Or.inl rfl)
  refine ⟨by rw [hcc]; exact hk, ?_, ?_⟩
  · intro ch hch
    rw [hcc] at hch
    exact ne_nil_of_strip_ne _ (hnb ch hch)
  · have hdoc : store_document st embed "data_collector" nz.docType nz.title
        nz.content nz.metadata nz.tags mn
        = ({ st with
            nextId := st.nextId + 1,
            documents := st.documents
              ++ [⟨st.nextId, nz.docType, "data_collector", nz.title, nz.content,
                    nz.metadata, nz.tags⟩],
            embeddings := upsertEmbedding st.embeddings "document" st.nextId
              (g (nz.content.take 8000)) mn },
          Except.ok st.nextId) := by
      simp [store_document, hembed]
    obtain ⟨st2, rows, h1, h2, h3, h4⟩ := store_chunk_rows_spec embed g mn st.nextId hembed
      (chunk_content nz.content 3000)
      { st with
        nextId := st.nextId + 1,
        documents := st.documents
          ++ [⟨st.nextId, nz.docType, "data_collector", nz.title, nz.content,
                nz.metadata, nz.tags⟩],
        embeddings := upsertEmbedding st.embeddings "document" st.nextId
          (g (nz.content.take 8000)) mn }
      0 (fun ch hch => hnb ch (by rw [hcc] at hch; exact hch))
    refine ⟨st2, ?_, ?_⟩
    · unfold store_normalized
      rw [hdoc]
      simp only [hchunks, List.isEmpty_nil, if_true]
      rw [h1]
    · rw [h2]
      simp only []
      rw [List.filter_append]
      have hfnil : st.chunks.filter (fun c => c.documentId == st.nextId) = [] :=
        List.filter_eq_nil_iff.mpr (fun c hc => by simpa using hfresh c hc)
      have hfall : rows.filter (fun c => c.documentId == st.nextId) = rows :=
        List.filter_eq_self.mpr (fun r hr => by simp [h4 r hr])
      rw [hfnil, hfall, List.nil_append, h3]
      rw [List.range_eq_range']

/-- Strip leaves a run of `a` characters unchanged. -/
lemma stripChars_replicate_a (n : Nat) :
    stripChars (List.replicate n 'a') = List.replicate n 'a' := by
  cases n with
  | zero => rfl
  | succ m =>
    have hdrop : List.dropWhile pySpace (List.replicate (m + 1) 'a')
        = List.replicate (m + 1) 'a' := by
      rw [List.replicate_succ]
      exact List.dropWhile_cons_of_neg (by decide)
    unfold stripChars
    rw [hdrop, List.reverse_replicate, hdrop, List.reverse_replicate]

/-- A non-empty run of `a` characters is nonblank. -/
lemma replicate_a_nonblank (n : Nat) (h : 0 < n) :
    stripChars (List.replicate n 'a') ≠ [] := by
  rw [stripChars_replicate_a]
  intro hc
  have hlen := congrArg List.length hc
  rw [List.length_replicate, List.length_nil] at hlen
  omega

set_option maxRecDepth 8000

/-- Witness for the amended C8 at a concrete 10,000-character document made of
six 1665-character paragraphs. -/
theorem C8_witness :
    (joinParas (List.replicate 6 (List.replicate 1665 'a'))).length = 10000 ∧
    3 ≤ (chunk_content (joinParas (List.replicate 6 (List.replicate 1665 'a'))) 3000).length := by
  have hlen : (joinParas (List.replicate 6 (List.replicate 1665 'a'))).length = 10000 := by
    rw [joinParas_length]
    rw [show massP (List.replicate 6 (List.replicate 1665 'a'))
        = (List.replicate 1665 'a').length + 2 + ((List.replicate 1665 'a').length + 2 +
            ((List.replicate 1665 'a').length + 2 + ((List.replicate 1665 'a').length + 2 +
              ((List.replicate 1665 'a').length + 2 + (List.replicate 1665 'a').length))))
      from rfl]
    rw [List.length_replicate]
  have hnl : ∀ p ∈ List.replicate 6 (List.replicate 1665 'a'), ∀ c ∈ p, c ≠ '\n' := by
    intro p hp c hc
    rw [List.mem_replicate] at hp
    rw [hp.2] at hc
    rw [List.mem_replicate] at hc
    rw [hc.2]
    decide
  have hne6 : List.replicate 6 (List.replicate 1665 'a') ≠ [] := by
    intro h
    have hl := congrArg List.length h
    rw [List.length_replicate, List.length_nil] at hl
    omega
  have hsplit : splitParas (joinParas (List.replicate 6 (List.replicate 1665 'a')))
      = List.replicate 6 (List.replicate 1665 'a') := split_join _ hne6 hnl
  have hpara : ∀ p ∈ splitParas (joinParas (List.replicate 6 (List.replicate 1665 'a'))),
      p.length ≤ 3000 ∧ stripChars p ≠ [] := by
    rw [hsplit]
    intro p hp
    rw [List.mem_replicate] at hp
    rw [hp.2]
    exact ⟨by rw [List.length_replicate]; omega, replicate_a_nonblank 1665 (by omega)⟩
  exact ⟨hlen,
    (C8_chunking_amended ⟨[], [], [], [], [], [], [], [], 0⟩ (fun _ => Except.ok [])
      (fun _ => []) "m"
      ⟨"t", "note", joinParas (List.replicate 6 (List.replicate 1665 'a')), [], [], []⟩
      (fun s => rfl) rfl (fun c hc => absurd hc (List.not_mem_nil c)) hlen hpara).1⟩

end Quorum
